import Mathlib

/-!
Verification of the AVL tree implementation in `src/avl_tree.rs` of the
`collections` repository.

The Rust tree is a recursive enum `AVLTree<K, V> = Node(Node<K, V>) | Nil`,
where `Node` holds an `Entry { key, value: Option<V> }`, two raw pointers to
heap-allocated child subtrees (exclusively owned), and a cached subtree height
`height_m`.  We shallow-embed it as a Lean inductive with the same fields; the
raw-pointer indirection is ownership plumbing with no observable effect on the
functional behaviour, so children are stored directly.

Partial operations are embedded as total functions whose out-of-domain
branches are given benign defaults; each such spot is noted in the doc comment
of the definition, and the corresponding "never panics" facts are proved as
theorems about trees reachable from `new()`.
-/

/-- `Entry<K, V>` from the source: a key together with an `Option`al value
slot (the slot is emptied transiently by `take()` during removal). -/
structure Entry (K V : Type) where
  key : K
  value : Option V
deriving DecidableEq

/-- `AVLTree<K, V>`: either a node (entry, left and right subtrees, cached
height `height_m`) or `Nil`. -/
inductive AVLTree (K V : Type) where
  | node (entry : Entry K V) (left : AVLTree K V) (right : AVLTree K V) (height_m : Nat)
  | nil
deriving DecidableEq

namespace AVLTree

variable {K V : Type}

/-- `AVLTree::new()`. -/
def new : AVLTree K V := .nil

/-- `AVLTree::is_nil`. -/
def isNil : AVLTree K V → Bool
  | .node _ _ _ _ => false
  | .nil => true

/-- `AVLTree::height`: the cached height (`height_m`) of a node, `0` for `Nil`. -/
def height : AVLTree K V → Nat
  | .node _ _ _ h => h
  | .nil => 0

/-- `AVLTree::balance_factor` (and `Node::balance`): cached height of the
right child minus cached height of the left child, as a signed integer;
`0` for `Nil`. -/
def balance_factor : AVLTree K V → Int
  | .node _ l r _ => (r.height : Int) - (l.height : Int)
  | .nil => 0

/-- `AVLTree::update_height` / `Node::update_height`: recompute the cached
height from the children's cached heights; no-op on `Nil`. -/
def update_height : AVLTree K V → AVLTree K V
  | .node e l r _ => .node e l r (1 + max l.height r.height)
  | .nil => .nil

/-- `AVLTree::unsafe_rotate_right`, i.e. `rotate(self, self.left, self.left.right)`:
the left child becomes the root, the old root becomes its right child and
adopts the grandchild as its left child; then `update_height` runs on the old
root first and the new root second, exactly as in `rotate`.  The source
`unwrap`s the root node and its left child; when either is `Nil` it would
panic, and the embedding returns the tree unchanged (that branch is proven
unreachable from the call sites in `rebalance`). -/
def rotate_right : AVLTree K V → AVLTree K V
  | .node pe (.node ce cl cr ch) pr ph =>
      (AVLTree.node ce cl ((AVLTree.node pe cr pr ph).update_height) ch).update_height
  | t => t

/-- `AVLTree::unsafe_rotate_left`, i.e. `rotate(self, self.right, self.right.left)`;
mirror image of `rotate_right`. -/
def rotate_left : AVLTree K V → AVLTree K V
  | .node pe pl (.node ce cl cr ch) ph =>
      (AVLTree.node ce ((AVLTree.node pe pl cl ph).update_height) cr ch).update_height
  | t => t

/-- `AVLTree::rebalance`: dispatch on the cached balance factor.  `-2` with a
non-positive left balance is a single right rotation, otherwise left-right;
`2` mirrored; `-1/0/1` do nothing.  Any other balance factor panics in the
source (`illegal balance factor`); the embedding leaves the tree unchanged
there, and `rebalanceOk`/`insertBalOk`/`removeBalOk` below record that this
branch is never taken on reachable trees. -/
def rebalance (t : AVLTree K V) : AVLTree K V :=
  match t with
  | .node e l r h =>
    if (AVLTree.node e l r h).balance_factor = -2 then
      if l.balance_factor ≤ 0 then (AVLTree.node e l r h).rotate_right
      else (AVLTree.node e l.rotate_left r h).rotate_right
    else if (AVLTree.node e l r h).balance_factor = 2 then
      if 0 ≤ r.balance_factor then (AVLTree.node e l r h).rotate_left
      else (AVLTree.node e l r.rotate_right h).rotate_left
    else AVLTree.node e l r h
  | .nil => .nil

/-- `AVLTree::get`: three-way comparison descent.  On an equal key the source
returns `Some(entry.value.as_ref().unwrap())`, which equals `entry.value`
whenever the slot is occupied and panics otherwise; the embedding returns
`entry.value` (slot occupancy on reachable trees is proved separately). -/
def get [LinearOrder K] : AVLTree K V → K → Option V
  | .node e l r _, k =>
    if k < e.key then l.get k
    else if e.key < k then r.get k
    else e.value
  | .nil, _ => none

/-- `AVLTree::insert`: descend by comparison (an equal key is a no-op in the
source: `Ordering::Equal => {}`), create a fresh leaf of height 1 at `Nil`,
and on the way out run `update_height` then `rebalance` on the current node. -/
def insert [LinearOrder K] : AVLTree K V → K → V → AVLTree K V
  | .node e l r h, k, v =>
    let t1 : AVLTree K V :=
      if k < e.key then AVLTree.node e (l.insert k v) r h
      else if e.key < k then AVLTree.node e l (r.insert k v) h
      else AVLTree.node e l r h
    t1.update_height.rebalance
  | .nil, k, v => AVLTree.node ⟨k, some v⟩ .nil .nil 1

/-- `AVLTree::delete_promote_leftmost(self, target)`: walk to the leftmost
node of `self`; splice that node out (its right child takes its place), swap
its entry into `target`'s entry slot, and return the value taken from
`target`'s old entry; `update_height` then `rebalance` run on every level on
the way out.  The embedding threads `target`'s entry explicitly and returns
(new subtree, new target entry, taken value).  The source panics on `Nil`
("should never be called") and `unwrap`s the taken value; the embedding
returns `(.nil, tgt, none)` resp. the unchecked `Option`. -/
def delete_promote_leftmost : AVLTree K V → Entry K V → AVLTree K V × Entry K V × Option V
  | .node e l r h, tgt =>
    if l.isNil then (r.update_height.rebalance, e, tgt.value)
    else
      ((AVLTree.node e (delete_promote_leftmost l tgt).1 r h).update_height.rebalance,
       (delete_promote_leftmost l tgt).2.1,
       (delete_promote_leftmost l tgt).2.2)
  | .nil, tgt => (.nil, tgt, none)

/-- `AVLTree::remove`: descend by comparison; on a hit with a non-`Nil` right
child promote the in-order successor via `delete_promote_leftmost` (the
returned value is the removed one), otherwise replace the node by its left
subtree and take its value; `update_height` then `rebalance` run on the
current node on the way out.  Returns (new tree, removed value). -/
def remove [LinearOrder K] : AVLTree K V → K → AVLTree K V × Option V
  | .node e l r h, k =>
    let p : AVLTree K V × Option V :=
      if k < e.key then (AVLTree.node e (l.remove k).1 r h, (l.remove k).2)
      else if e.key < k then (AVLTree.node e l (r.remove k).1 h, (r.remove k).2)
      else if !r.isNil then
        (AVLTree.node (delete_promote_leftmost r e).2.1 l (delete_promote_leftmost r e).1 h,
         (delete_promote_leftmost r e).2.2)
      else (l, e.value)
    (p.1.update_height.rebalance, p.2)
  | .nil, _ => (.nil, none)

/-- `AVLTree::first`: descend left. -/
def first : AVLTree K V → Option K
  | .node e l _ _ => if l.isNil then some e.key else l.first
  | .nil => none

/-- `AVLTree::last`: descend right. -/
def last : AVLTree K V → Option K
  | .node e _ r _ => if r.isNil then some e.key else r.last
  | .nil => none

/-- The in-range check performed by `rebalance`'s `match node.balance()`:
a balance factor outside `{-2,-1,0,1,2}` hits the
`panic!("illegal balance factor")` arm. -/
def rebalanceOk (t : AVLTree K V) : Bool :=
  decide (-2 ≤ t.balance_factor) && decide (t.balance_factor ≤ 2)

/-- Instrumentation of `insert`: conjunction of `rebalanceOk` over every tree
on which `insert` invokes `rebalance` (line 86 of the source, at every level
of the descent). -/
def insertBalOk [LinearOrder K] : AVLTree K V → K → V → Bool
  | .node e l r h, k, v =>
    let sub : Bool :=
      if k < e.key then l.insertBalOk k v
      else if e.key < k then r.insertBalOk k v
      else true
    let t1 : AVLTree K V :=
      if k < e.key then AVLTree.node e (l.insert k v) r h
      else if e.key < k then AVLTree.node e l (r.insert k v) h
      else AVLTree.node e l r h
    sub && rebalanceOk t1.update_height
  | .nil, _, _ => true

/-- Instrumentation of `delete_promote_leftmost`: conjunction of
`rebalanceOk` over every tree on which it invokes `rebalance` (line 147 of
the source). -/
def dplBalOk : AVLTree K V → Entry K V → Bool
  | .node e l r h, tgt =>
    if l.isNil then rebalanceOk r.update_height
    else
      dplBalOk l tgt &&
        rebalanceOk (AVLTree.node e (delete_promote_leftmost l tgt).1 r h).update_height
  | .nil, _ => true

/-- Instrumentation of `remove`: conjunction of `rebalanceOk` over every tree
on which `remove` (line 124) or its inner `delete_promote_leftmost` invokes
`rebalance`. -/
def removeBalOk [LinearOrder K] : AVLTree K V → K → Bool
  | .node e l r h, k =>
    let sub : Bool :=
      if k < e.key then l.removeBalOk k
      else if e.key < k then r.removeBalOk k
      else if !r.isNil then r.dplBalOk e
      else true
    let p1 : AVLTree K V :=
      if k < e.key then AVLTree.node e (l.remove k).1 r h
      else if e.key < k then AVLTree.node e l (r.remove k).1 h
      else if !r.isNil then
        AVLTree.node (delete_promote_leftmost r e).2.1 l (delete_promote_leftmost r e).1 h
      else l
    sub && rebalanceOk p1.update_height
  | .nil, _ => true

/-- `height_internal` from the repository's own test module: the true
(recomputed) height, ignoring the cached `height_m`. -/
def height_internal : AVLTree K V → Nat
  | .node _ l r _ => 1 + max l.height_internal r.height_internal
  | .nil => 0

/-- `balanced_internal` from the repository's own test module: every node's
children differ in (recomputed) height by at most 1, recursively. -/
def balanced_internal : AVLTree K V → Bool
  | .node _ l r _ =>
      l.balanced_internal && r.balanced_internal &&
        decide (((l.height_internal : Int) - (r.height_internal : Int)).natAbs ≤ 1)
  | .nil => true

/-- Height-cache correctness: every node's `height_m` equals
`1 + max(height_m of left, height_m of right)` (children of `Nil` count 0),
recursively.  Equivalent to `height_m = height_internal` everywhere. -/
def heightsOk : AVLTree K V → Bool
  | .node _ l r h => decide (h = 1 + max l.height r.height) && l.heightsOk && r.heightsOk
  | .nil => true

/-- Every node's value slot is occupied (`entry.value` is `Some`). -/
def valuesSome : AVLTree K V → Bool
  | .node e l r _ => e.value.isSome && l.valuesSome && r.valuesSome
  | .nil => true

/-- In-order traversal of the entries. -/
def inorder : AVLTree K V → List (Entry K V)
  | .node e l r _ => l.inorder ++ e :: r.inorder
  | .nil => []

/-- In-order list of keys. -/
def keys (t : AVLTree K V) : List K := t.inorder.map Entry.key

end AVLTree

/-- Structural BST invariant: at every node, all keys in the left subtree are
below the node's key and all keys in the right subtree above it. -/
inductive IsBST {K V : Type} [LinearOrder K] : AVLTree K V → Prop
  | nil : IsBST .nil
  | node {e : Entry K V} {l r : AVLTree K V} {h : Nat} :
      (∀ x ∈ l.inorder, x.key < e.key) →
      (∀ x ∈ r.inorder, e.key < x.key) →
      IsBST l → IsBST r → IsBST (.node e l r h)

/-- Trees reachable from `AVLTree::new()` by the public mutators
`insert` and `remove`. -/
inductive Reachable {K V : Type} [LinearOrder K] : AVLTree K V → Prop
  | new : Reachable AVLTree.new
  | insert {t : AVLTree K V} (k : K) (v : V) : Reachable t → Reachable (t.insert k v)
  | remove {t : AVLTree K V} (k : K) : Reachable t → Reachable (t.remove k).1

/-- Lookup in an entry list: value slot of the first entry with the given
key. -/
def lookupList {K V : Type} [DecidableEq K] : List (Entry K V) → K → Option V
  | [], _ => none
  | e :: es, k => if e.key = k then e.value else lookupList es k

/-- Sorted-list model of `insert`: place a fresh occupied entry at its sorted
position, or leave the list unchanged if the key is already present
(matching the source's no-op on `Ordering::Equal`). -/
def insList {K V : Type} [LinearOrder K] : List (Entry K V) → K → V → List (Entry K V)
  | [], k, v => [⟨k, some v⟩]
  | e :: es, k, v =>
    if k < e.key then ⟨k, some v⟩ :: e :: es
    else if e.key < k then e :: insList es k v
    else e :: es

/-- List model of `remove`: drop every entry with the given key. -/
def delList {K V : Type} [DecidableEq K] (xs : List (Entry K V)) (k : K) :
    List (Entry K V) :=
  xs.filter (fun e => decide (e.key ≠ k))

/-- Value of the first occurrence of a key in an operation list. -/
def firstVal {K V : Type} [DecidableEq K] : List (K × V) → K → Option V
  | [], _ => none
  | p :: rest, k => if p.1 = k then some p.2 else firstVal rest k

/-- Fold a list of `(key, value)` insertions over a starting tree. -/
def foldInserts {K V : Type} [LinearOrder K] (t : AVLTree K V) (ops : List (K × V)) :
    AVLTree K V :=
  ops.foldl (fun t p => t.insert p.1 p.2) t

/-- Run a list of `(key, value)` insertions from `AVLTree::new()`. -/
def applyInserts {K V : Type} [LinearOrder K] (ops : List (K × V)) : AVLTree K V :=
  foldInserts AVLTree.new ops

/-- Full invariant bundle of a well-formed tree: correct height caches,
AVL balance, strictly sorted in-order keys, and occupied value slots. -/
def Invar {K V : Type} [LinearOrder K] (t : AVLTree K V) : Prop :=
  t.heightsOk = true ∧ t.balanced_internal = true ∧
    (t.keys.Pairwise (· < ·)) ∧ t.valuesSome = true

/-- Shape well-formedness: correct height caches and the AVL balance
condition. -/
def WF {K V : Type} (t : AVLTree K V) : Prop :=
  t.heightsOk = true ∧ t.balanced_internal = true

namespace AVLTree

variable {K V : Type}

@[simp] theorem height_nil : (AVLTree.nil : AVLTree K V).height = 0 := rfl

@[simp] theorem height_node (e : Entry K V) (l r : AVLTree K V) (h : Nat) :
    (AVLTree.node e l r h).height = h := rfl

@[simp] theorem height_internal_nil : (AVLTree.nil : AVLTree K V).height_internal = 0 := rfl

@[simp] theorem height_internal_node (e : Entry K V) (l r : AVLTree K V) (h : Nat) :
    (AVLTree.node e l r h).height_internal = 1 + max l.height_internal r.height_internal := rfl

@[simp] theorem inorder_nil : (AVLTree.nil : AVLTree K V).inorder = [] := rfl

@[simp] theorem inorder_node (e : Entry K V) (l r : AVLTree K V) (h : Nat) :
    (AVLTree.node e l r h).inorder = l.inorder ++ e :: r.inorder := rfl

@[simp] theorem keys_nil : (AVLTree.nil : AVLTree K V).keys = [] := rfl

@[simp] theorem keys_node (e : Entry K V) (l r : AVLTree K V) (h : Nat) :
    (AVLTree.node e l r h).keys = l.keys ++ e.key :: r.keys := by
  simp [keys, inorder]

@[simp] theorem isNil_nil : (AVLTree.nil : AVLTree K V).isNil = true := rfl

@[simp] theorem isNil_node (e : Entry K V) (l r : AVLTree K V) (h : Nat) :
    (AVLTree.node e l r h).isNil = false := rfl

theorem heightsOk_node {e : Entry K V} {l r : AVLTree K V} {h : Nat} :
    (AVLTree.node e l r h).heightsOk = true ↔
      h = 1 + max l.height r.height ∧ l.heightsOk = true ∧ r.heightsOk = true := by
  simp [heightsOk, and_assoc]

theorem balanced_node {e : Entry K V} {l r : AVLTree K V} {h : Nat} :
    (AVLTree.node e l r h).balanced_internal = true ↔
      l.balanced_internal = true ∧ r.balanced_internal = true ∧
        ((l.height_internal : Int) - (r.height_internal : Int)).natAbs ≤ 1 := by
  simp [balanced_internal, and_assoc]

theorem valuesSome_node {e : Entry K V} {l r : AVLTree K V} {h : Nat} :
    (AVLTree.node e l r h).valuesSome = true ↔
      e.value.isSome = true ∧ l.valuesSome = true ∧ r.valuesSome = true := by
  simp [valuesSome, and_assoc]

/-- Under a correct height cache the cached height is the true height. -/
theorem height_eq_internal {t : AVLTree K V} (ht : t.heightsOk = true) :
    t.height = t.height_internal := by
  induction t with
  | node e l r h ihl ihr =>
    rcases heightsOk_node.mp ht with ⟨h1, h2, h3⟩
    simp [h1, ihl h2, ihr h3]
  | nil => rfl

/-- `update_height` only rewrites the cached root height; the entries and
their order are untouched. -/
@[simp] theorem inorder_update_height (t : AVLTree K V) :
    t.update_height.inorder = t.inorder := by
  cases t <;> rfl

@[simp] theorem inorder_rotate_right (t : AVLTree K V) :
    t.rotate_right.inorder = t.inorder := by
  match t with
  | .node pe (.node ce cl cr ch) pr ph => simp [rotate_right, update_height]
  | .node pe .nil pr ph => rfl
  | .nil => rfl

@[simp] theorem inorder_rotate_left (t : AVLTree K V) :
    t.rotate_left.inorder = t.inorder := by
  match t with
  | .node pe pl (.node ce cl cr ch) ph => simp [rotate_left, update_height]
  | .node pe pl .nil ph => rfl
  | .nil => rfl

@[simp] theorem inorder_rebalance (t : AVLTree K V) :
    t.rebalance.inorder = t.inorder := by
  match t with
  | .node e l r h =>
    simp only [rebalance]
    split
    · split <;> simp
    · split
      · split <;> simp
      · rfl
  | .nil => rfl

/-- If the cached balance factor is in `{-1,0,1}`, `rebalance` is the
identity. -/
theorem rebalance_id {t : AVLTree K V}
    (h2 : t.balance_factor ≠ -2) (h2' : t.balance_factor ≠ 2) :
    t.rebalance = t := by
  match t with
  | .node e l r h => simp only [rebalance, if_neg h2, if_neg h2']
  | .nil => rfl

/-- If the root height cache is already correct, `update_height` is the
identity. -/
theorem update_height_id {t : AVLTree K V} (ht : t.heightsOk = true) :
    t.update_height = t := by
  match t with
  | .node e l r h =>
    rcases heightsOk_node.mp ht with ⟨h1, -, -⟩
    simp [update_height, h1]
  | .nil => rfl

/-- Occupied value slots, phrased over the in-order entry list. -/
theorem valuesSome_iff {t : AVLTree K V} :
    t.valuesSome = true ↔ ∀ e ∈ t.inorder, e.value.isSome = true := by
  induction t with
  | node e l r h ihl ihr =>
    rw [valuesSome_node, inorder_node]
    simp only [List.mem_append, List.mem_cons]
    constructor
    · rintro ⟨h1, h2, h3⟩ x (hx | rfl | hx)
      · exact ihl.mp h2 x hx
      · exact h1
      · exact ihr.mp h3 x hx
    · intro hall
      exact ⟨hall e (Or.inr (Or.inl rfl)),
        ihl.mpr fun x hx => hall x (Or.inl hx),
        ihr.mpr fun x hx => hall x (Or.inr (Or.inr hx))⟩
  | nil => simp [valuesSome]

end AVLTree

theorem lookupList_none {K V : Type} [DecidableEq K] {A : List (Entry K V)} {k : K}
    (hA : ∀ x ∈ A, x.key ≠ k) : lookupList A k = none := by
  induction A with
  | nil => rfl
  | cons a A ih =>
    rw [lookupList, if_neg (hA a (List.mem_cons_self a A))]
    exact ih fun x hx => hA x (List.mem_cons_of_mem a hx)

theorem lookupList_append_right {K V : Type} [DecidableEq K] {A C : List (Entry K V)} {k : K}
    (hC : ∀ x ∈ C, x.key ≠ k) : lookupList (A ++ C) k = lookupList A k := by
  induction A with
  | nil => simpa using lookupList_none hC
  | cons a A ih =>
    rw [List.cons_append, lookupList, lookupList]
    by_cases h : a.key = k
    · simp [h]
    · simp only [if_neg h]
      exact ih

theorem lookupList_append_left {K V : Type} [DecidableEq K] {A C : List (Entry K V)} {k : K}
    (hA : ∀ x ∈ A, x.key ≠ k) : lookupList (A ++ C) k = lookupList C k := by
  induction A with
  | nil => rfl
  | cons a A ih =>
    rw [List.cons_append, lookupList, if_neg (hA a (List.mem_cons_self a A))]
    exact ih fun x hx => hA x (List.mem_cons_of_mem a hx)

/-- For a BST-ordered tree, `get` is lookup in the in-order entry list. -/
theorem get_eq_lookup {K V : Type} [LinearOrder K] {t : AVLTree K V} (hb : IsBST t) (k : K) :
    t.get k = lookupList t.inorder k := by
  induction hb with
  | nil => rfl
  | @node e l r h hle hre bl br ihl ihr =>
    rw [AVLTree.inorder_node, AVLTree.get]
    by_cases h1 : k < e.key
    · rw [if_pos h1, ihl]
      exact (lookupList_append_right (by
        intro x hx
        rcases List.mem_cons.mp hx with rfl | hx
        · exact fun hc => absurd hc.symm (ne_of_lt h1)
        · exact fun hc => absurd (hc ▸ hre x hx) (lt_asymm h1))).symm
    · rw [if_neg h1]
      by_cases h2 : e.key < k
      · rw [if_pos h2, ihr,
          lookupList_append_left (fun x hx => ne_of_lt (lt_trans (hle x hx) h2)),
          lookupList, if_neg (ne_of_lt h2)]
      · have hek : e.key = k := le_antisymm (not_lt.mp h1) (not_lt.mp h2)
        rw [if_neg h2, lookupList_append_left (fun x hx => ne_of_lt (hek ▸ hle x hx)),
          lookupList, if_pos hek]

/-- A tree is BST-ordered iff its in-order key list is strictly sorted. -/
theorem isBST_iff_pairwise {K V : Type} [LinearOrder K] {t : AVLTree K V} :
    IsBST t ↔ t.keys.Pairwise (· < ·) := by
  induction t with
  | node e l r h ihl ihr =>
    rw [AVLTree.keys_node, List.pairwise_append, List.pairwise_cons]
    constructor
    · intro hb
      cases hb with
      | node hle hre bl br =>
        refine ⟨ihl.mp bl, ⟨?_, ihr.mp br⟩, ?_⟩
        · intro b hb
          rcases List.mem_map.mp hb with ⟨x, hx, rfl⟩
          exact hre x hx
        · intro a ha b hb
          rcases List.mem_map.mp ha with ⟨x, hx, rfl⟩
          rcases List.mem_cons.mp hb with rfl | hb
          · exact hle x hx
          · rcases List.mem_map.mp hb with ⟨y, hy, rfl⟩
            exact lt_trans (hle x hx) (hre y hy)
    · rintro ⟨hA, ⟨hB, hBp⟩, hcross⟩
      refine IsBST.node ?_ ?_ (ihl.mpr hA) (ihr.mpr hBp)
      · intro x hx
        exact hcross x.key (List.mem_map_of_mem Entry.key hx) e.key (List.mem_cons_self _ _)
      · intro x hx
        exact hB x.key (List.mem_map_of_mem Entry.key hx)
  | nil =>
    constructor
    · intro _; exact List.Pairwise.nil
    · intro _; exact IsBST.nil

theorem insList_append_lt {K V : Type} [LinearOrder K] {A B : List (Entry K V)}
    {e : Entry K V} {k : K} (v : V) (hk : k < e.key) :
    insList (A ++ e :: B) k v = insList A k v ++ e :: B := by
  induction A with
  | nil => simp [insList, hk]
  | cons a A ih =>
    simp only [List.cons_append, insList]
    by_cases h1 : k < a.key
    · simp [h1]
    · simp only [if_neg h1]
      by_cases h2 : a.key < k
      · simp [h2, ih]
      · simp [h2]

theorem insList_append_gt {K V : Type} [LinearOrder K] {A B : List (Entry K V)}
    {e : Entry K V} {k : K} (v : V) (hk : e.key < k) (hA : ∀ x ∈ A, x.key < k) :
    insList (A ++ e :: B) k v = A ++ e :: insList B k v := by
  induction A with
  | nil => simp [insList, asymm hk, hk]
  | cons a A ih =>
    have ha : a.key < k := hA a (List.mem_cons_self a A)
    simp only [List.cons_append, insList, if_neg (asymm ha), if_pos ha]
    rw [List.append_eq, ih fun x hx => hA x (List.mem_cons_of_mem a hx)]

theorem insList_append_self {K V : Type} [LinearOrder K] {A B : List (Entry K V)}
    {e : Entry K V} {k : K} (v : V) (hk1 : ¬ k < e.key) (hk2 : ¬ e.key < k)
    (hA : ∀ x ∈ A, x.key < k) :
    insList (A ++ e :: B) k v = A ++ e :: B := by
  induction A with
  | nil => simp [insList, hk1, hk2]
  | cons a A ih =>
    have ha : a.key < k := hA a (List.mem_cons_self a A)
    simp only [List.cons_append, insList, if_neg (asymm ha), if_pos ha]
    rw [List.append_eq, ih fun x hx => hA x (List.mem_cons_of_mem a hx)]

/-- For a BST-ordered tree, `insert` acts on the in-order entry list as the
sorted-list insertion `insList`. -/
theorem inorder_insert {K V : Type} [LinearOrder K] {t : AVLTree K V} (hb : IsBST t)
    (k : K) (v : V) : (t.insert k v).inorder = insList t.inorder k v := by
  induction hb with
  | nil => rfl
  | @node e l r h hle hre bl br ihl ihr =>
    simp only [AVLTree.insert, AVLTree.inorder_rebalance, AVLTree.inorder_update_height]
    by_cases h1 : k < e.key
    · rw [if_pos h1]
      rw [AVLTree.inorder_node, AVLTree.inorder_node, ihl, insList_append_lt v h1]
    · rw [if_neg h1]
      by_cases h2 : e.key < k
      · rw [if_pos h2, AVLTree.inorder_node, AVLTree.inorder_node, ihr,
          insList_append_gt v h2 (fun x hx => lt_trans (hle x hx) h2)]
      · rw [if_neg h2]
        exact (insList_append_self v h1 h2
          (fun x hx => lt_of_lt_of_le (hle x hx) (not_lt.mp h1))).symm

theorem mem_insList {K V : Type} [LinearOrder K] {xs : List (Entry K V)} {k : K} {v : V}
    {x : Entry K V} (hx : x ∈ insList xs k v) : x = ⟨k, some v⟩ ∨ x ∈ xs := by
  induction xs with
  | nil =>
    simp only [insList, List.mem_singleton] at hx
    exact Or.inl hx
  | cons a A ih =>
    simp only [insList] at hx
    by_cases h1 : k < a.key
    · rw [if_pos h1] at hx
      rcases List.mem_cons.mp hx with rfl | hx
      · exact Or.inl rfl
      · exact Or.inr hx
    · rw [if_neg h1] at hx
      by_cases h2 : a.key < k
      · rw [if_pos h2] at hx
        rcases List.mem_cons.mp hx with rfl | hx
        · exact Or.inr (List.mem_cons_self _ _)
        · rcases ih hx with h | h
          · exact Or.inl h
          · exact Or.inr (List.mem_cons_of_mem a h)
      · rw [if_neg h2] at hx
        exact Or.inr hx

theorem insList_sorted {K V : Type} [LinearOrder K] {xs : List (Entry K V)} {k : K} {v : V}
    (hs : (xs.map Entry.key).Pairwise (· < ·)) :
    ((insList xs k v).map Entry.key).Pairwise (· < ·) := by
  induction xs with
  | nil => simp [insList]
  | cons e es ih =>
    simp only [List.map_cons, List.pairwise_cons] at hs
    obtain ⟨he, hs⟩ := hs
    simp only [insList]
    by_cases h1 : k < e.key
    · rw [if_pos h1]
      simp only [List.map_cons, List.pairwise_cons]
      refine ⟨?_, ?_, hs⟩
      · intro b hb
        rcases List.mem_cons.mp hb with rfl | hb
        · exact h1
        · exact lt_trans h1 (he b hb)
      · exact he
    · rw [if_neg h1]
      by_cases h2 : e.key < k
      · rw [if_pos h2]
        simp only [List.map_cons, List.pairwise_cons]
        refine ⟨?_, ih hs⟩
        intro b hb
        rcases List.mem_map.mp hb with ⟨x, hx, rfl⟩
        rcases mem_insList hx with rfl | hx
        · exact h2
        · exact he x.key (List.mem_map_of_mem Entry.key hx)
      · rw [if_neg h2]
        simp only [List.map_cons, List.pairwise_cons]
        exact ⟨he, hs⟩

theorem isNil_iff {K V : Type} {t : AVLTree K V} : t.isNil = true ↔ t = .nil := by
  cases t <;> simp [AVLTree.isNil]

/-- `delete_promote_leftmost` removes exactly the head of the in-order entry
list of the subtree it walks, and that head is the entry it promotes into the
target slot. -/
theorem dpl_inorder {K V : Type} (s : AVLTree K V) (tgt : Entry K V) (hs : s.isNil = false) :
    s.inorder = (s.delete_promote_leftmost tgt).2.1 ::
      (s.delete_promote_leftmost tgt).1.inorder := by
  induction s generalizing tgt with
  | nil => simp [AVLTree.isNil] at hs
  | node e l r h ihl ihr =>
    by_cases hl : l.isNil
    · rw [isNil_iff.mp hl]
      rw [isNil_iff.mp hl] at *
      simp [AVLTree.delete_promote_leftmost]
    · rw [AVLTree.delete_promote_leftmost]
      simp only [if_neg hl, AVLTree.inorder_node, AVLTree.inorder_rebalance,
        AVLTree.inorder_update_height]
      rw [ihl tgt (Bool.not_eq_true _ ▸ hl)]
      simp

/-- The value taken out by `delete_promote_leftmost` is the (pre-swap) value
of the target entry. -/
theorem dpl_value {K V : Type} (s : AVLTree K V) (tgt : Entry K V) (hs : s.isNil = false) :
    (s.delete_promote_leftmost tgt).2.2 = tgt.value := by
  induction s generalizing tgt with
  | nil => simp [AVLTree.isNil] at hs
  | node e l r h ihl ihr =>
    by_cases hl : l.isNil
    · rw [AVLTree.delete_promote_leftmost]
      simp [if_pos hl]
    · rw [AVLTree.delete_promote_leftmost]
      simp only [if_neg hl]
      exact ihl tgt (Bool.not_eq_true _ ▸ hl)

theorem delList_id {K V : Type} [DecidableEq K] {xs : List (Entry K V)} {k : K}
    (h : ∀ x ∈ xs, x.key ≠ k) : delList xs k = xs := by
  rw [delList, List.filter_eq_self]
  intro x hx
  simpa using h x hx

theorem delList_append {K V : Type} [DecidableEq K] (A B : List (Entry K V)) (k : K) :
    delList (A ++ B) k = delList A k ++ delList B k := by
  simp [delList]

/-- For a BST-ordered tree, `remove` deletes exactly the entries with the
removed key from the in-order list, and returns the value slot of the entry
with that key (`none` if absent). -/
theorem remove_spec {K V : Type} [LinearOrder K] {t : AVLTree K V} (hb : IsBST t) (k : K) :
    (t.remove k).1.inorder = delList t.inorder k ∧
      (t.remove k).2 = lookupList t.inorder k := by
  induction hb with
  | nil => exact ⟨rfl, rfl⟩
  | @node e l r h hle hre bl br ihl ihr =>
    have hAne : ∀ x ∈ l.inorder, x.key ≠ k → True := fun _ _ _ => trivial
    rw [AVLTree.remove]
    by_cases h1 : k < e.key
    · simp only [if_pos h1, AVLTree.inorder_rebalance, AVLTree.inorder_update_height,
        AVLTree.inorder_node]
      have hBne : ∀ x ∈ e :: r.inorder, x.key ≠ k := by
        intro x hx
        rcases List.mem_cons.mp hx with rfl | hx
        · exact fun hc => absurd hc.symm (ne_of_lt h1)
        · exact fun hc => absurd (hc ▸ hre x hx) (lt_asymm h1)
      constructor
      · rw [ihl.1, delList_append]
        have : delList (e :: r.inorder) k = e :: r.inorder :=
          delList_id hBne
        rw [this]
      · rw [ihl.2, lookupList_append_right hBne]
    · rw [if_neg h1]
      by_cases h2 : e.key < k
      · simp only [if_pos h2, AVLTree.inorder_rebalance, AVLTree.inorder_update_height,
          AVLTree.inorder_node]
        have hAne : ∀ x ∈ l.inorder, x.key ≠ k :=
          fun x hx => ne_of_lt (lt_trans (hle x hx) h2)
        constructor
        · rw [ihr.1, delList_append, delList_id hAne]
          have he : delList (e :: r.inorder) k = e :: delList r.inorder k := by
            simp [delList, List.filter, ne_of_lt h2]
          rw [he]
        · rw [ihr.2, lookupList_append_left hAne, lookupList, if_neg (ne_of_lt h2)]
      · have hek : e.key = k := le_antisymm (not_lt.mp h1) (not_lt.mp h2)
        have hAne : ∀ x ∈ l.inorder, x.key ≠ k :=
          fun x hx => ne_of_lt (hek ▸ hle x hx)
        rw [if_neg h2]
        by_cases hr : r.isNil
        · rw [isNil_iff.mp hr] at *
          simp only [AVLTree.isNil, Bool.not_true, if_neg (by simp : ¬ (false = true)),
            AVLTree.inorder_rebalance, AVLTree.inorder_update_height,
            AVLTree.inorder_node, AVLTree.inorder_nil]
          constructor
          · rw [delList_append, delList_id hAne]
            have : delList (e :: ([] : List (Entry K V))) k = [] := by
              simp [delList, List.filter, hek]
            rw [this, List.append_nil]
          · rw [lookupList_append_left hAne, lookupList, if_pos hek]
        · have hr' : r.isNil = false := Bool.not_eq_true _ ▸ hr
          simp only [hr', Bool.not_false, eq_self_iff_true, if_true, AVLTree.inorder_rebalance,
            AVLTree.inorder_update_height, AVLTree.inorder_node]
          have hBne : ∀ x ∈ r.inorder, x.key ≠ k :=
            fun x hx => (ne_of_lt (hek ▸ hre x hx)).symm
          constructor
          · rw [delList_append, delList_id hAne]
            have he : delList (e :: r.inorder) k = delList r.inorder k := by
              simp [delList, List.filter, hek]
            rw [he, delList_id hBne, dpl_inorder r e hr']
          · rw [lookupList_append_left hAne, lookupList, if_pos hek]
            exact dpl_value r e hr'

namespace AVLTree

@[simp] theorem balance_factor_node (e : Entry K V) (l r : AVLTree K V) (h : Nat) :
    (AVLTree.node e l r h).balance_factor = (r.height : Int) - l.height := rfl

theorem rebalance_node (e : Entry K V) (l r : AVLTree K V) (h : Nat) :
    (AVLTree.node e l r h).rebalance =
      if (r.height : Int) - l.height = -2 then
        if l.balance_factor ≤ 0 then (AVLTree.node e l r h).rotate_right
        else (AVLTree.node e l.rotate_left r h).rotate_right
      else if (r.height : Int) - l.height = 2 then
        if 0 ≤ r.balance_factor then (AVLTree.node e l r h).rotate_left
        else (AVLTree.node e l r.rotate_right h).rotate_left
      else AVLTree.node e l r h := rfl

theorem update_height_node (e : Entry K V) (l r : AVLTree K V) (h : Nat) :
    (AVLTree.node e l r h).update_height
      = AVLTree.node e l r (1 + max l.height r.height) := rfl

/-- When the children's cached heights differ by at most one, the
`update_height`-then-`rebalance` pass only refreshes the root cache. -/
theorem rebalance_noop {e : Entry K V} {l r : AVLTree K V} {h : Nat}
    (h1 : -1 ≤ (r.height : Int) - l.height) (h2 : (r.height : Int) - l.height ≤ 1) :
    (AVLTree.node e l r h).update_height.rebalance
      = AVLTree.node e l r (1 + max l.height r.height) := by
  rw [update_height_node, rebalance_node, if_neg (by omega), if_neg (by omega)]

/-- Left-heavy rebalancing: if both children are well-formed and the left one
is exactly two levels taller, the `update_height`/`rebalance` pass restores
well-formedness, and the resulting true height is the left child's height or
one more. -/
theorem rebalance_left_heavy {e : Entry K V} {l r : AVLTree K V} {H : Nat}
    (wl : WF l) (wr : WF r)
    (hd : (l.height_internal : Int) - r.height_internal = 2) :
    WF ((AVLTree.node e l r H).update_height.rebalance) ∧
      (((AVLTree.node e l r H).update_height.rebalance).height_internal = l.height_internal ∨
        ((AVLTree.node e l r H).update_height.rebalance).height_internal
          = l.height_internal + 1) := by
  obtain ⟨hOkl, hBl⟩ := wl
  obtain ⟨hOkr, hBr⟩ := wr
  have hcr : r.height = r.height_internal := height_eq_internal hOkr
  cases l with
  | nil => rw [height_internal_nil] at hd; omega
  | node le ll lr lh =>
    have hcl := height_eq_internal hOkl
    rcases heightsOk_node.mp hOkl with ⟨hlh, hOkll, hOklr⟩
    rcases balanced_node.mp hBl with ⟨hBll, hBlr, hABl⟩
    have hcll := height_eq_internal hOkll
    have hclr := height_eq_internal hOklr
    simp only [height_node] at hcl
    simp only [height_internal_node] at hcl hd
    rw [update_height_node, rebalance_node,
      if_pos (by rw [height_node, hcr, hcl]; omega)]
    by_cases hbl : (lr.height : Int) - ll.height ≤ 0
    · rw [if_pos (by simpa [balance_factor_node] using hbl)]
      rw [hcll, hclr] at hbl
      simp only [rotate_right, update_height_node, height_node]
      refine ⟨⟨?_, ?_⟩, ?_⟩
      · rw [heightsOk_node]
        refine ⟨by rw [height_node], hOkll, ?_⟩
        rw [heightsOk_node]
        exact ⟨rfl, hOklr, hOkr⟩
      · rw [balanced_node, balanced_node]
        refine ⟨hBll, ⟨hBlr, hBr, ?_⟩, ?_⟩
        · omega
        · simp only [height_internal_node]
          omega
      · simp only [height_internal_node]
        omega
    · rw [if_neg (by simpa [balance_factor_node] using hbl)]
      rw [hcll, hclr] at hbl
      cases lr with
      | nil =>
        rw [height_internal_nil] at hbl
        omega
      | node lre lrl lrr lrh =>
        rcases heightsOk_node.mp hOklr with ⟨hlrh, hOklrl, hOklrr⟩
        rcases balanced_node.mp hBlr with ⟨hBlrl, hBlrr, hABlr⟩
        have hclrl := height_eq_internal hOklrl
        have hclrr := height_eq_internal hOklrr
        simp only [height_node] at hclr
        simp only [height_internal_node] at hclr hcl hd hbl hABl
        simp only [rotate_left, rotate_right, update_height_node, height_node]
        refine ⟨⟨?_, ?_⟩, ?_⟩
        · rw [heightsOk_node]
          refine ⟨by rw [height_node, height_node], ?_, ?_⟩
          · rw [heightsOk_node]
            exact ⟨rfl, hOkll, hOklrl⟩
          · rw [heightsOk_node]
            exact ⟨rfl, hOklrr, hOkr⟩
        · rw [balanced_node, balanced_node, balanced_node]
          refine ⟨⟨hBll, hBlrl, ?_⟩, ⟨hBlrr, hBr, ?_⟩, ?_⟩
          · omega
          · omega
          · simp only [height_internal_node]
            omega
        · simp only [height_internal_node]
          omega

end AVLTree

namespace AVLTree

variable {K V : Type}

/-- Right-heavy rebalancing: mirror image of `rebalance_left_heavy`. -/
theorem rebalance_right_heavy {e : Entry K V} {l r : AVLTree K V} {H : Nat}
    (wl : WF l) (wr : WF r)
    (hd : (r.height_internal : Int) - l.height_internal = 2) :
    WF ((AVLTree.node e l r H).update_height.rebalance) ∧
      (((AVLTree.node e l r H).update_height.rebalance).height_internal = r.height_internal ∨
        ((AVLTree.node e l r H).update_height.rebalance).height_internal
          = r.height_internal + 1) := by
  obtain ⟨hOkl, hBl⟩ := wl
  obtain ⟨hOkr, hBr⟩ := wr
  have hcl : l.height = l.height_internal := height_eq_internal hOkl
  cases r with
  | nil => rw [height_internal_nil] at hd; omega
  | node re rl rr rh =>
    have hcr := height_eq_internal hOkr
    rcases heightsOk_node.mp hOkr with ⟨hrh, hOkrl, hOkrr⟩
    rcases balanced_node.mp hBr with ⟨hBrl, hBrr, hABr⟩
    have hcrl := height_eq_internal hOkrl
    have hcrr := height_eq_internal hOkrr
    simp only [height_node] at hcr
    simp only [height_internal_node] at hcr hd
    rw [update_height_node, rebalance_node,
      if_neg (by rw [height_node, hcl, hcr]; omega),
      if_pos (by rw [height_node, hcl, hcr]; omega)]
    by_cases hbr : 0 ≤ (rr.height : Int) - rl.height
    · rw [if_pos (by simpa [balance_factor_node] using hbr)]
      rw [hcrl, hcrr] at hbr
      simp only [rotate_left, update_height_node, height_node]
      refine ⟨⟨?_, ?_⟩, ?_⟩
      · rw [heightsOk_node]
        refine ⟨by rw [height_node], ?_, hOkrr⟩
        rw [heightsOk_node]
        exact ⟨rfl, hOkl, hOkrl⟩
      · rw [balanced_node, balanced_node]
        refine ⟨⟨hBl, hBrl, ?_⟩, hBrr, ?_⟩
        · omega
        · simp only [height_internal_node]
          omega
      · simp only [height_internal_node]
        omega
    · rw [if_neg (by simpa [balance_factor_node] using hbr)]
      rw [hcrl, hcrr] at hbr
      cases rl with
      | nil =>
        rw [height_internal_nil] at hbr
        omega
      | node rle rll rlr rlh =>
        rcases heightsOk_node.mp hOkrl with ⟨hrlh, hOkrll, hOkrlr⟩
        rcases balanced_node.mp hBrl with ⟨hBrll, hBrlr, hABrl⟩
        have hcrll := height_eq_internal hOkrll
        have hcrlr := height_eq_internal hOkrlr
        simp only [height_node] at hcrl
        simp only [height_internal_node] at hcrl hcr hd hbr hABr
        simp only [rotate_right, rotate_left, update_height_node, height_node]
        refine ⟨⟨?_, ?_⟩, ?_⟩
        · rw [heightsOk_node]
          refine ⟨by rw [height_node, height_node], ?_, ?_⟩
          · rw [heightsOk_node]
            exact ⟨rfl, hOkl, hOkrll⟩
          · rw [heightsOk_node]
            exact ⟨rfl, hOkrlr, hOkrr⟩
        · rw [balanced_node, balanced_node, balanced_node]
          refine ⟨⟨hBl, hBrll, ?_⟩, ⟨hBrlr, hBrr, ?_⟩, ?_⟩
          · omega
          · omega
          · simp only [height_internal_node]
            omega
        · simp only [height_internal_node]
          omega

/-- Combined rebalancing lemma: with well-formed children whose true heights
differ by at most two, the `update_height`/`rebalance` pass yields a
well-formed tree whose height is `max` or `1 + max` of the child heights,
and exactly `1 + max` when no rotation was needed. -/
theorem rebalance_wf {e : Entry K V} {l r : AVLTree K V} {H : Nat}
    (wl : WF l) (wr : WF r)
    (hd : ((l.height_internal : Int) - r.height_internal).natAbs ≤ 2) :
    WF ((AVLTree.node e l r H).update_height.rebalance) ∧
      max l.height_internal r.height_internal ≤
        ((AVLTree.node e l r H).update_height.rebalance).height_internal ∧
      ((AVLTree.node e l r H).update_height.rebalance).height_internal ≤
        1 + max l.height_internal r.height_internal ∧
      (((l.height_internal : Int) - r.height_internal).natAbs ≤ 1 →
        ((AVLTree.node e l r H).update_height.rebalance).height_internal
          = 1 + max l.height_internal r.height_internal) := by
  by_cases h2 : (l.height_internal : Int) - r.height_internal = 2
  · obtain ⟨hwf, hh⟩ := @rebalance_left_heavy K V e l r H wl wr h2
    exact ⟨hwf, by omega, by omega, by omega⟩
  · by_cases h2' : (r.height_internal : Int) - l.height_internal = 2
    · obtain ⟨hwf, hh⟩ := @rebalance_right_heavy K V e l r H wl wr h2'
      exact ⟨hwf, by omega, by omega, by omega⟩
    · have hcl := height_eq_internal wl.1
      have hcr := height_eq_internal wr.1
      rw [rebalance_noop (by omega) (by omega)]
      refine ⟨⟨heightsOk_node.mpr ⟨rfl, wl.1, wr.1⟩,
          balanced_node.mpr ⟨wl.2, wr.2, by omega⟩⟩, ?_, ?_, ?_⟩
      · simp only [height_internal_node]
        omega
      · simp only [height_internal_node]
        omega
      · intro hx
        simp only [height_internal_node]

/-- `insert` preserves shape well-formedness, increases the true height by at
most one (and never decreases it), and every `rebalance` it performs sees a
balance factor in `[-2, 2]`. -/
theorem insert_wf [LinearOrder K] {t : AVLTree K V} (w : WF t) (k : K) (v : V) :
    WF (t.insert k v) ∧ t.height_internal ≤ (t.insert k v).height_internal ∧
      (t.insert k v).height_internal ≤ t.height_internal + 1 ∧
      t.insertBalOk k v = true := by
  induction t with
  | nil =>
    refine ⟨⟨?_, ?_⟩, ?_, ?_, ?_⟩ <;>
      simp [insert, heightsOk, balanced_internal, height_internal, insertBalOk, height]
  | node e l r h ihl ihr =>
    obtain ⟨hOk, hB⟩ := w
    rcases heightsOk_node.mp hOk with ⟨hh, hOkl, hOkr⟩
    rcases balanced_node.mp hB with ⟨hBl, hBr, hAB⟩
    have hcl := height_eq_internal hOkl
    have hcr := height_eq_internal hOkr
    by_cases h1 : k < e.key
    · obtain ⟨wl', hlo, hhi, hbal⟩ := ihl ⟨hOkl, hBl⟩
      have H := @rebalance_wf K V e (l.insert k v) r h wl' ⟨hOkr, hBr⟩ (by omega)
      simp only [insert, if_pos h1]
      refine ⟨H.1, ?_, ?_, ?_⟩
      · simp only [height_internal_node]
        omega
      · simp only [height_internal_node]
        omega
      · simp only [insertBalOk, if_pos h1, hbal, Bool.true_and, rebalanceOk,
          update_height_node, balance_factor_node, Bool.and_eq_true, decide_eq_true_iff]
        rw [height_eq_internal wl'.1, hcr]
        constructor <;> omega
    · by_cases h2 : e.key < k
      · obtain ⟨wr', hlo, hhi, hbal⟩ := ihr ⟨hOkr, hBr⟩
        have H := @rebalance_wf K V e l (r.insert k v) h ⟨hOkl, hBl⟩ wr' (by omega)
        simp only [insert, if_neg h1, if_pos h2]
        refine ⟨H.1, ?_, ?_, ?_⟩
        · simp only [height_internal_node]
          omega
        · simp only [height_internal_node]
          omega
        · simp only [insertBalOk, if_neg h1, if_pos h2, hbal, Bool.true_and, rebalanceOk,
            update_height_node, balance_factor_node, Bool.and_eq_true, decide_eq_true_iff]
          rw [height_eq_internal wr'.1, hcl]
          constructor <;> omega
      · have H := @rebalance_wf K V e l r h ⟨hOkl, hBl⟩ ⟨hOkr, hBr⟩ (by omega)
        simp only [insert, if_neg h1, if_neg h2]
        refine ⟨H.1, ?_, ?_, ?_⟩
        · simp only [height_internal_node]
          omega
        · simp only [height_internal_node]
          omega
        · simp only [insertBalOk, if_neg h1, if_neg h2, Bool.true_and, rebalanceOk,
            update_height_node, balance_factor_node, Bool.and_eq_true, decide_eq_true_iff]
          rw [hcl, hcr]
          constructor <;> omega

/-- A well-formed tree is left unchanged by `rebalance`. -/
theorem rebalance_id_of_wf {t : AVLTree K V} (w : WF t) : t.rebalance = t := by
  cases t with
  | nil => rfl
  | node e l r h =>
    rcases heightsOk_node.mp w.1 with ⟨hh, hOkl, hOkr⟩
    rcases balanced_node.mp w.2 with ⟨hBl, hBr, hAB⟩
    have hcl := height_eq_internal hOkl
    have hcr := height_eq_internal hOkr
    exact rebalance_id (by rw [balance_factor_node]; omega)
      (by rw [balance_factor_node]; omega)

/-- A well-formed tree passes the balance-factor range check. -/
theorem rebalanceOk_of_wf {t : AVLTree K V} (w : WF t) : t.rebalanceOk = true := by
  cases t with
  | nil => rfl
  | node e l r h =>
    rcases heightsOk_node.mp w.1 with ⟨hh, hOkl, hOkr⟩
    rcases balanced_node.mp w.2 with ⟨hBl, hBr, hAB⟩
    have hcl := height_eq_internal hOkl
    have hcr := height_eq_internal hOkr
    simp only [rebalanceOk, balance_factor_node, Bool.and_eq_true, decide_eq_true_iff]
    constructor <;> omega

/-- `update_height` does not change the root balance factor check. -/
theorem rebalanceOk_update_height (t : AVLTree K V) :
    t.update_height.rebalanceOk = t.rebalanceOk := by
  cases t <;> rfl

/-- `delete_promote_leftmost` preserves shape well-formedness, lowers the
true height by at most one, and every `rebalance` it performs sees a balance
factor in `[-2, 2]`. -/
theorem dpl_wf {t : AVLTree K V} (w : WF t) (hnil : t.isNil = false) (tgt : Entry K V) :
    WF (t.delete_promote_leftmost tgt).1 ∧
      (t.delete_promote_leftmost tgt).1.height_internal ≤ t.height_internal ∧
      t.height_internal ≤ (t.delete_promote_leftmost tgt).1.height_internal + 1 ∧
      t.dplBalOk tgt = true := by
  induction t with
  | nil => simp [isNil] at hnil
  | node e l r h ihl ihr =>
    obtain ⟨hOk, hB⟩ := w
    rcases heightsOk_node.mp hOk with ⟨hh, hOkl, hOkr⟩
    rcases balanced_node.mp hB with ⟨hBl, hBr, hAB⟩
    have hcl := height_eq_internal hOkl
    have hcr := height_eq_internal hOkr
    by_cases hl : l.isNil
    · have hl0 : l = .nil := isNil_iff.mp hl
      subst hl0
      simp only [delete_promote_leftmost, isNil_nil, eq_self_iff_true, if_true, dplBalOk,
        update_height_id hOkr, rebalance_id_of_wf ⟨hOkr, hBr⟩]
      refine ⟨⟨hOkr, hBr⟩, ?_, ?_, ?_⟩
      · simp only [height_internal_node, height_internal_nil]
        omega
      · simp only [height_internal_node, height_internal_nil]
        omega
      · exact rebalanceOk_of_wf ⟨hOkr, hBr⟩
    · have hl' : l.isNil = false := Bool.not_eq_true _ ▸ hl
      obtain ⟨wl', hlo, hhi, hbal⟩ := ihl ⟨hOkl, hBl⟩ hl'
      have H := @rebalance_wf K V e (l.delete_promote_leftmost tgt).1 r h wl'
        ⟨hOkr, hBr⟩ (by omega)
      simp only [delete_promote_leftmost, hl', if_neg (by simp : ¬ (false = true))]
      refine ⟨H.1, ?_, ?_, ?_⟩
      · simp only [height_internal_node]
        omega
      · simp only [height_internal_node]
        omega
      · simp only [dplBalOk, hl', if_neg (by simp : ¬ (false = true)), hbal, Bool.true_and,
          rebalanceOk, update_height_node, balance_factor_node, Bool.and_eq_true,
          decide_eq_true_iff]
        rw [height_eq_internal wl'.1, hcr]
        constructor <;> omega

/-- `remove` preserves shape well-formedness, lowers the true height by at
most one, and every `rebalance` it performs (directly or inside
`delete_promote_leftmost`) sees a balance factor in `[-2, 2]`. -/
theorem remove_wf [LinearOrder K] {t : AVLTree K V} (w : WF t) (k : K) :
    WF (t.remove k).1 ∧ (t.remove k).1.height_internal ≤ t.height_internal ∧
      t.height_internal ≤ (t.remove k).1.height_internal + 1 ∧
      t.removeBalOk k = true := by
  induction t with
  | nil => exact ⟨⟨rfl, rfl⟩, Nat.le_refl 0, Nat.le_succ 0, rfl⟩
  | node e l r h ihl ihr =>
    obtain ⟨hOk, hB⟩ := w
    rcases heightsOk_node.mp hOk with ⟨hh, hOkl, hOkr⟩
    rcases balanced_node.mp hB with ⟨hBl, hBr, hAB⟩
    have hcl := height_eq_internal hOkl
    have hcr := height_eq_internal hOkr
    by_cases h1 : k < e.key
    · obtain ⟨wl', hlo, hhi, hbal⟩ := ihl ⟨hOkl, hBl⟩
      have H := @rebalance_wf K V e (l.remove k).1 r h wl' ⟨hOkr, hBr⟩ (by omega)
      simp only [remove, if_pos h1]
      refine ⟨H.1, ?_, ?_, ?_⟩
      · simp only [height_internal_node]
        omega
      · simp only [height_internal_node]
        omega
      · simp only [removeBalOk, if_pos h1, hbal, Bool.true_and, rebalanceOk,
          update_height_node, balance_factor_node, Bool.and_eq_true, decide_eq_true_iff]
        rw [height_eq_internal wl'.1, hcr]
        constructor <;> omega
    · by_cases h2 : e.key < k
      · obtain ⟨wr', hlo, hhi, hbal⟩ := ihr ⟨hOkr, hBr⟩
        have H := @rebalance_wf K V e l (r.remove k).1 h ⟨hOkl, hBl⟩ wr' (by omega)
        simp only [remove, if_neg h1, if_pos h2]
        refine ⟨H.1, ?_, ?_, ?_⟩
        · simp only [height_internal_node]
          omega
        · simp only [height_internal_node]
          omega
        · simp only [removeBalOk, if_neg h1, if_pos h2, hbal, Bool.true_and, rebalanceOk,
            update_height_node, balance_factor_node, Bool.and_eq_true, decide_eq_true_iff]
          rw [height_eq_internal wr'.1, hcl]
          constructor <;> omega
      · by_cases hr : r.isNil
        · have hr0 : r = .nil := isNil_iff.mp hr
          subst hr0
          simp only [remove, if_neg h1, if_neg h2, isNil_nil, Bool.not_true,
            if_neg (by simp : ¬ (false = true)), update_height_id hOkl,
            rebalance_id_of_wf ⟨hOkl, hBl⟩]
          refine ⟨⟨hOkl, hBl⟩, ?_, ?_, ?_⟩
          · simp only [height_internal_node, height_internal_nil]
            omega
          · simp only [height_internal_node, height_internal_nil]
            omega
          · simp only [removeBalOk, if_neg h1, if_neg h2, isNil_nil, Bool.not_true,
              if_neg (by simp : ¬ (false = true)), Bool.true_and]
            rw [rebalanceOk_update_height]
            exact rebalanceOk_of_wf ⟨hOkl, hBl⟩
        · have hr' : r.isNil = false := Bool.not_eq_true _ ▸ hr
          obtain ⟨wr', hlo, hhi, hbal⟩ := dpl_wf ⟨hOkr, hBr⟩ hr' e
          have H := @rebalance_wf K V (r.delete_promote_leftmost e).2.1 l
            (r.delete_promote_leftmost e).1 h ⟨hOkl, hBl⟩ wr' (by omega)
          simp only [remove, if_neg h1, if_neg h2, hr', Bool.not_false,
            eq_self_iff_true, if_true]
          refine ⟨H.1, ?_, ?_, ?_⟩
          · simp only [height_internal_node]
            omega
          · simp only [height_internal_node]
            omega
          · simp only [removeBalOk, if_neg h1, if_neg h2, hr', Bool.not_false,
              eq_self_iff_true, if_true, hbal, Bool.true_and, rebalanceOk,
              update_height_node, balance_factor_node, Bool.and_eq_true, decide_eq_true_iff]
            rw [height_eq_internal wr'.1, hcl]
            constructor <;> omega

end AVLTree

/-- `insert` preserves the full invariant bundle. -/
theorem insert_invar {K V : Type} [LinearOrder K] {t : AVLTree K V} (inv : Invar t)
    (k : K) (v : V) : Invar (t.insert k v) := by
  obtain ⟨hOk, hB, hS, hV⟩ := inv
  have hb : IsBST t := isBST_iff_pairwise.mpr hS
  have w := AVLTree.insert_wf ⟨hOk, hB⟩ k v
  refine ⟨w.1.1, w.1.2, ?_, ?_⟩
  · show ((t.insert k v).inorder.map Entry.key).Pairwise (· < ·)
    rw [inorder_insert hb]
    exact insList_sorted hS
  · rw [AVLTree.valuesSome_iff]
    intro x hx
    rw [inorder_insert hb] at hx
    rcases mem_insList hx with rfl | hx
    · rfl
    · exact AVLTree.valuesSome_iff.mp hV x hx

/-- `remove` preserves the full invariant bundle. -/
theorem remove_invar {K V : Type} [LinearOrder K] {t : AVLTree K V} (inv : Invar t)
    (k : K) : Invar (t.remove k).1 := by
  obtain ⟨hOk, hB, hS, hV⟩ := inv
  have hb : IsBST t := isBST_iff_pairwise.mpr hS
  have w := AVLTree.remove_wf ⟨hOk, hB⟩ k
  refine ⟨w.1.1, w.1.2, ?_, ?_⟩
  · show (((t.remove k).1.inorder).map Entry.key).Pairwise (· < ·)
    rw [(remove_spec hb k).1]
    exact List.Pairwise.sublist (List.Sublist.map _ (List.filter_sublist _)) hS
  · rw [AVLTree.valuesSome_iff]
    intro x hx
    rw [(remove_spec hb k).1] at hx
    exact AVLTree.valuesSome_iff.mp hV x (List.mem_of_mem_filter hx)

/-- Every tree reachable by the public mutators satisfies the invariant
bundle. -/
theorem reachable_invar {K V : Type} [LinearOrder K] {t : AVLTree K V}
    (h : Reachable t) : Invar t := by
  induction h with
  | new => exact ⟨rfl, rfl, List.Pairwise.nil, rfl⟩
  | insert k v _ ih => exact insert_invar ih k v
  | remove k _ ih => exact remove_invar ih k

/-- On an invariant-satisfying tree, looking up an absent key yields `none`. -/
theorem get_not_mem {K V : Type} [LinearOrder K] {t : AVLTree K V} (inv : Invar t)
    {k : K} (hk : k ∉ t.keys) : t.get k = none := by
  have hb : IsBST t := isBST_iff_pairwise.mpr inv.2.2.1
  rw [get_eq_lookup hb]
  refine lookupList_none ?_
  intro x hx hc
  exact hk (hc ▸ List.mem_map_of_mem Entry.key hx)

/-- Removing an absent key from an invariant-satisfying tree returns the
tree itself, unchanged, together with `none`. -/
theorem remove_not_mem {K V : Type} [LinearOrder K] {t : AVLTree K V} (inv : Invar t)
    {k : K} (hk : k ∉ t.keys) : t.remove k = (t, none) := by
  obtain ⟨hOk, hB, hS, hV⟩ := inv
  have hb : IsBST t := isBST_iff_pairwise.mpr hS
  induction hb with
  | nil => rfl
  | @node e l r h hle hre bl br ihl ihr =>
    rcases AVLTree.heightsOk_node.mp hOk with ⟨hh, hOkl, hOkr⟩
    rcases AVLTree.balanced_node.mp hB with ⟨hBl, hBr, hAB⟩
    rw [AVLTree.keys_node] at hk
    simp only [List.mem_append, List.mem_cons, not_or] at hk
    obtain ⟨hkl, hke, hkr⟩ := hk
    have hSl : (l.keys.Pairwise (· < ·)) := isBST_iff_pairwise.mp bl
    have hSr : (r.keys.Pairwise (· < ·)) := isBST_iff_pairwise.mp br
    have hVl : l.valuesSome = true := by
      rw [AVLTree.valuesSome_iff]
      intro x hx
      exact AVLTree.valuesSome_iff.mp hV x (by simp [AVLTree.inorder_node, hx])
    have hVr : r.valuesSome = true := by
      rw [AVLTree.valuesSome_iff]
      intro x hx
      exact AVLTree.valuesSome_iff.mp hV x (by simp [AVLTree.inorder_node, hx])
    by_cases h1 : k < e.key
    · rw [AVLTree.remove]
      simp only [if_pos h1, ihl hkl hOkl hBl hSl hVl]
      rw [AVLTree.update_height_id hOk, AVLTree.rebalance_id_of_wf ⟨hOk, hB⟩]
    · by_cases h2 : e.key < k
      · rw [AVLTree.remove]
        simp only [if_neg h1, if_pos h2, ihr hkr hOkr hBr hSr hVr]
        rw [AVLTree.update_height_id hOk, AVLTree.rebalance_id_of_wf ⟨hOk, hB⟩]
      · exact absurd (le_antisymm (not_lt.mp h2) (not_lt.mp h1)) hke

/-- Inserting a key that is already present leaves the tree literally
unchanged (the source's `Ordering::Equal => {}` no-op). -/
theorem insert_mem_eq {K V : Type} [LinearOrder K] {t : AVLTree K V} (inv : Invar t)
    {k : K} (hk : k ∈ t.keys) (v : V) : t.insert k v = t := by
  obtain ⟨hOk, hB, hS, hV⟩ := inv
  have hb : IsBST t := isBST_iff_pairwise.mpr hS
  induction hb with
  | nil => simp [AVLTree.keys] at hk
  | @node e l r h hle hre bl br ihl ihr =>
    rcases AVLTree.heightsOk_node.mp hOk with ⟨hh, hOkl, hOkr⟩
    rcases AVLTree.balanced_node.mp hB with ⟨hBl, hBr, hAB⟩
    have hSl : (l.keys.Pairwise (· < ·)) := isBST_iff_pairwise.mp bl
    have hSr : (r.keys.Pairwise (· < ·)) := isBST_iff_pairwise.mp br
    have hVl : l.valuesSome = true := by
      rw [AVLTree.valuesSome_iff]
      intro x hx
      exact AVLTree.valuesSome_iff.mp hV x (by simp [AVLTree.inorder_node, hx])
    have hVr : r.valuesSome = true := by
      rw [AVLTree.valuesSome_iff]
      intro x hx
      exact AVLTree.valuesSome_iff.mp hV x (by simp [AVLTree.inorder_node, hx])
    rw [AVLTree.keys_node] at hk
    rcases List.mem_append.mp hk with hkl | hker
    · have h1 : k < e.key := by
        rcases List.mem_map.mp hkl with ⟨x, hx, rfl⟩
        exact hle x hx
      rw [AVLTree.insert]
      simp only [if_pos h1, ihl hkl hOkl hBl hSl hVl]
      rw [AVLTree.update_height_id hOk, AVLTree.rebalance_id_of_wf ⟨hOk, hB⟩]
    · rcases List.mem_cons.mp hker with rfl | hkr
      · rw [AVLTree.insert]
        simp only [if_neg (lt_irrefl e.key)]
        rw [AVLTree.update_height_id hOk, AVLTree.rebalance_id_of_wf ⟨hOk, hB⟩]
      · have h2 : e.key < k := by
          rcases List.mem_map.mp hkr with ⟨x, hx, rfl⟩
          exact hre x hx
        rw [AVLTree.insert]
        simp only [if_neg (asymm h2), if_pos h2, ihr hkr hOkr hBr hSr hVr]
        rw [AVLTree.update_height_id hOk, AVLTree.rebalance_id_of_wf ⟨hOk, hB⟩]


theorem lookupList_insList {K V : Type} [LinearOrder K] {xs : List (Entry K V)}
    {k k' : K} {v : V}
    (hs : (xs.map Entry.key).Pairwise (· < ·))
    (hv : ∀ x ∈ xs, x.value.isSome = true) :
    lookupList (insList xs k v) k' =
      if k' = k then (lookupList xs k).or (some v) else lookupList xs k' := by
  induction xs with
  | nil =>
    simp only [insList, lookupList]
    by_cases hk : k = k'
    · rw [if_pos hk, if_pos hk.symm]
      rfl
    · rw [if_neg hk, if_neg (fun hc : k' = k => hk hc.symm)]
  | cons e es ih =>
    simp only [List.map_cons, List.pairwise_cons] at hs
    obtain ⟨he, hs⟩ := hs
    have hve : e.value.isSome = true := hv e (List.mem_cons_self e es)
    have hves : ∀ x ∈ es, x.value.isSome = true :=
      fun x hx => hv x (List.mem_cons_of_mem e hx)
    simp only [insList]
    by_cases h1 : k < e.key
    · rw [if_pos h1]
      have hnone : lookupList (e :: es) k = none := by
        refine lookupList_none ?_
        intro x hx
        rcases List.mem_cons.mp hx with rfl | hx
        · exact fun hc => absurd (hc ▸ h1) (lt_irrefl _)
        · exact fun hc => absurd
            (hc ▸ lt_trans h1 (he x.key (List.mem_map_of_mem Entry.key hx))) (lt_irrefl _)
      by_cases hk : k' = k
      · subst hk
        rw [if_pos rfl, hnone, lookupList, if_pos rfl]
        rfl
      · rw [if_neg hk, lookupList, if_neg (fun hc : k = k' => hk hc.symm)]
    · rw [if_neg h1]
      by_cases h2 : e.key < k
      · rw [if_pos h2]
        have hk0 : lookupList (e :: es) k = lookupList es k := by
          rw [lookupList, if_neg (ne_of_lt h2)]
        have hk1 : lookupList (e :: insList es k v) k'
            = if e.key = k' then e.value else lookupList (insList es k v) k' := rfl
        have hk2 : lookupList (e :: es) k'
            = if e.key = k' then e.value else lookupList es k' := rfl
        rw [hk0, hk1, hk2, ih hs hves]
        by_cases h3 : e.key = k'
        · have hne : ¬ k' = k := fun hc => absurd (h3 ▸ hc ▸ h2) (lt_irrefl _)
          rw [if_pos h3, if_neg hne, if_pos h3]
        · rw [if_neg h3]
          by_cases hk : k' = k
          · rw [if_pos hk, if_pos hk]
          · rw [if_neg hk, if_neg hk, if_neg h3]
      · have hek : e.key = k := le_antisymm (not_lt.mp h1) (not_lt.mp h2)
        rw [if_neg h2]
        by_cases hk : k' = k
        · subst hk
          rw [if_pos rfl, lookupList, if_pos hek]
          obtain ⟨w, hw⟩ := Option.isSome_iff_exists.mp hve
          rw [hw]
          rfl
        · rw [if_neg hk]

theorem delList_key_ne {K V : Type} [DecidableEq K] {xs : List (Entry K V)} {k : K}
    {x : Entry K V} (hx : x ∈ delList xs k) : x.key ≠ k := by
  have := List.of_mem_filter hx
  simpa using this

theorem lookupList_delList {K V : Type} [DecidableEq K] {xs : List (Entry K V)}
    {k k' : K} (h : k' ≠ k) :
    lookupList (delList xs k) k' = lookupList xs k' := by
  induction xs with
  | nil => rfl
  | cons e es ih =>
    rw [delList, List.filter_cons]
    by_cases he : e.key = k
    · rw [if_neg (by simp [he]), lookupList, if_neg (fun hc : e.key = k' => h (hc ▸ he ▸ rfl))]
      exact ih
    · rw [if_pos (by simp [he]), lookupList, lookupList]
      by_cases h3 : e.key = k'
      · rw [if_pos h3, if_pos h3]
      · rw [if_neg h3, if_neg h3]
        exact ih

/-- Effect of `insert` on `get`: a fresh key becomes retrievable with the new
value, an existing key keeps its old value (the source does not overwrite),
and all other keys are unaffected. -/
theorem get_insert {K V : Type} [LinearOrder K] {t : AVLTree K V} (inv : Invar t)
    (k k' : K) (v : V) :
    (t.insert k v).get k' = if k' = k then (t.get k).or (some v) else t.get k' := by
  obtain ⟨hOk, hB, hS, hV⟩ := inv
  have hb : IsBST t := isBST_iff_pairwise.mpr hS
  have hb' : IsBST (t.insert k v) := by
    rw [isBST_iff_pairwise]
    show ((t.insert k v).inorder.map Entry.key).Pairwise (· < ·)
    rw [inorder_insert hb]
    exact insList_sorted hS
  rw [get_eq_lookup hb', inorder_insert hb, get_eq_lookup hb, get_eq_lookup hb,
    lookupList_insList hS (AVLTree.valuesSome_iff.mp hV)]

/-- Folding a list of insertions over an invariant-satisfying tree: a key
resolves to its value in the starting tree if present there, else to the
value of its first insertion in the list. -/
theorem get_foldInserts {K V : Type} [LinearOrder K] {t : AVLTree K V} (inv : Invar t)
    (ops : List (K × V)) (k : K) :
    (foldInserts t ops).get k = (t.get k).or (firstVal ops k) := by
  induction ops generalizing t with
  | nil =>
    show t.get k = (t.get k).or none
    cases t.get k <;> rfl
  | cons p ops ih =>
    show (foldInserts (t.insert p.1 p.2) ops).get k
      = (t.get k).or (firstVal (p :: ops) k)
    rw [ih (insert_invar inv p.1 p.2), get_insert inv p.1 k p.2, firstVal]
    by_cases hk : k = p.1
    · rw [if_pos hk, if_pos hk.symm]
      subst hk
      cases t.get p.1 <;> rfl
    · rw [if_neg hk, if_neg (fun hc : p.1 = k => hk hc.symm)]

/-- Effect of `remove` on `get` for a present key: the removed value is
returned, the key becomes unretrievable, and every other key is unaffected. -/
theorem remove_get {K V : Type} [LinearOrder K] {t : AVLTree K V} (inv : Invar t)
    {k : K} {v : V} (hget : t.get k = some v) :
    (t.remove k).2 = some v ∧ (t.remove k).1.get k = none ∧
      ∀ k', k' ≠ k → (t.remove k).1.get k' = t.get k' := by
  obtain ⟨hOk, hB, hS, hV⟩ := inv
  have hb : IsBST t := isBST_iff_pairwise.mpr hS
  have inv' : Invar (t.remove k).1 := remove_invar ⟨hOk, hB, hS, hV⟩ k
  have hb' : IsBST (t.remove k).1 := isBST_iff_pairwise.mpr inv'.2.2.1
  refine ⟨?_, ?_, ?_⟩
  · rw [(remove_spec hb k).2, ← get_eq_lookup hb k]
    exact hget
  · rw [get_eq_lookup hb' k, (remove_spec hb k).1]
    refine lookupList_none ?_
    intro x hx
    exact delList_key_ne hx
  · intro k' hk'
    rw [get_eq_lookup hb' k', (remove_spec hb k).1, lookupList_delList hk',
      ← get_eq_lookup hb k']

/-- C1, counterexample: in the insert sequence `[(1,10),(1,20)]` the key `1`
is (re-)inserted with value `20` and never removed or followed by any later
insert, yet `get 1` returns `some 10`, not `some 20`: the source's
`Ordering::Equal => {}` keeps the first value instead of overwriting. -/
theorem c1_counterexample :
    (applyInserts [((1 : Int), (10 : Int)), (1, 20)]).get 1 = some 10 ∧
      (applyInserts [((1 : Int), (10 : Int)), (1, 20)]).get 1 ≠ some 20 := by
  constructor
  · decide
  · decide

/-- C1 (amended): for every sequence of inserts applied from `new()`, every
key `k` resolves via `get` to the value of the FIRST insert of `k` in the
sequence (later inserts of an existing key have no effect; no removes are
involved). -/
theorem c1_round_trip {K V : Type} [LinearOrder K] (ops : List (K × V)) (k : K) (v : V)
    (h : firstVal ops k = some v) : (applyInserts ops).get k = some v := by
  have hnew : Invar (AVLTree.new : AVLTree K V) := ⟨rfl, rfl, List.Pairwise.nil, rfl⟩
  have hfold := get_foldInserts hnew ops k
  rw [applyInserts, hfold, h]
  rfl

theorem c1_round_trip_witness :
    firstVal [((1 : Int), (10 : Int)), (2, 20), (1, 99)] 1 = some 10 ∧
      (applyInserts [((1 : Int), (10 : Int)), (2, 20), (1, 99)]).get 1 = some 10 :=
  ⟨by decide, c1_round_trip [((1 : Int), (10 : Int)), (2, 20), (1, 99)] 1 10 (by decide)⟩

/-- C2: every tree reachable from `new()` by inserts and removes satisfies
the AVL balance invariant (`|height(left) - height(right)| <= 1` at every
node, heights recomputed), as checked by the repository's own
`balanced_internal` oracle. -/
theorem c2_balance_invariant {K V : Type} [LinearOrder K] {t : AVLTree K V}
    (h : Reachable t) : t.balanced_internal = true :=
  (reachable_invar h).2.1

theorem c2_balance_invariant_witness :
    ((((AVLTree.new.insert 1 10).insert 2 20).insert 3 30).remove 2 :
        AVLTree Int Int × Option Int).1.balanced_internal = true :=
  c2_balance_invariant
    (Reachable.remove 2 (Reachable.insert 3 30 (Reachable.insert 2 20
      (Reachable.insert 1 10 Reachable.new))))

/-- C3: removing a key that is present with value `v` from a reachable tree
returns `some v`, makes a subsequent `get` of that key return `none`, and
leaves the `get` result of every other key unchanged. -/
theorem c3_removal_completeness {K V : Type} [LinearOrder K] {t : AVLTree K V}
    (hr : Reachable t) {k : K} {v : V} (hget : t.get k = some v) :
    (t.remove k).2 = some v ∧ (t.remove k).1.get k = none ∧
      ∀ k', k' ≠ k → (t.remove k).1.get k' = t.get k' :=
  remove_get (reachable_invar hr) hget

theorem c3_removal_completeness_witness :
    ((AVLTree.new.insert 1 10).insert 2 20 : AVLTree Int Int).get 1 = some 10 ∧
      (((AVLTree.new.insert 1 10).insert 2 20 : AVLTree Int Int).remove 1).2 = some 10 ∧
      (((AVLTree.new.insert 1 10).insert 2 20 : AVLTree Int Int).remove 1).1.get 1 = none ∧
      (((AVLTree.new.insert 1 10).insert 2 20 : AVLTree Int Int).remove 1).1.get 2
        = ((AVLTree.new.insert 1 10).insert 2 20 : AVLTree Int Int).get 2 := by
  have hR : Reachable ((AVLTree.new.insert 1 10).insert 2 20 : AVLTree Int Int) :=
    Reachable.insert 2 20 (Reachable.insert 1 10 Reachable.new)
  have hget : ((AVLTree.new.insert 1 10).insert 2 20 : AVLTree Int Int).get 1 = some 10 := by
    decide
  have h := c3_removal_completeness hR hget
  exact ⟨by decide, h.1, h.2.1, h.2.2 2 (by decide)⟩

/-- C4, counterexample: after `insert 1 10; insert 1 20`, `get 1` is
`some 10`, not `some 20`: re-inserting an existing key does not overwrite
the stored value. -/
theorem c4_counterexample :
    ((AVLTree.new.insert 1 10).insert 1 20 : AVLTree Int Int).get 1 ≠ some 20 := by
  decide

/-- C4 (amended): inserting a key that is already present in a reachable
tree is a complete no-op: the tree (shape, entries, cached heights) is
literally unchanged, so `get k` still returns the original value, the key
set is unchanged, and the tree holds exactly one entry for `k`. -/
theorem c4_overwrite_is_noop {K V : Type} [LinearOrder K] {t : AVLTree K V}
    (hr : Reachable t) {k : K} (hk : k ∈ t.keys) (v : V) :
    t.insert k v = t ∧ (t.insert k v).get k = t.get k ∧
      (t.insert k v).keys = t.keys ∧ t.keys.count k = 1 := by
  have inv := reachable_invar hr
  have heq := insert_mem_eq inv hk v
  refine ⟨heq, by rw [heq], by rw [heq], ?_⟩
  exact List.count_eq_one_of_mem (inv.2.2.1.imp ne_of_lt) hk

theorem c4_overwrite_is_noop_witness :
    (1 : Int) ∈ ((AVLTree.new.insert 1 10).insert 2 20 : AVLTree Int Int).keys ∧
      (((AVLTree.new.insert 1 10).insert 2 20 : AVLTree Int Int).insert 1 99
        = ((AVLTree.new.insert 1 10).insert 2 20 : AVLTree Int Int)) ∧
      ((AVLTree.new.insert 1 10).insert 2 20 : AVLTree Int Int).keys.count 1 = 1 := by
  have hR : Reachable ((AVLTree.new.insert 1 10).insert 2 20 : AVLTree Int Int) :=
    Reachable.insert 2 20 (Reachable.insert 1 10 Reachable.new)
  have hk : (1 : Int) ∈ ((AVLTree.new.insert 1 10).insert 2 20 : AVLTree Int Int).keys := by
    decide
  have h := c4_overwrite_is_noop hR hk 99
  exact ⟨by decide, h.1, h.2.2.2⟩

/-- C5: the in-order key traversal of every reachable tree is strictly
ascending (equivalently the tree is a BST with no duplicate keys). -/
theorem c5_bst_ordering {K V : Type} [LinearOrder K] {t : AVLTree K V}
    (h : Reachable t) : t.keys.Chain' (· < ·) :=
  List.chain'_iff_pairwise.mpr (reachable_invar h).2.2.1

theorem c5_bst_ordering_witness :
    ((((AVLTree.new.insert 2 2).insert 1 1).insert 3 3).remove 2 :
        AVLTree Int Int × Option Int).1.keys.Chain' (· < ·) :=
  c5_bst_ordering
    (Reachable.remove 2 (Reachable.insert 3 3 (Reachable.insert 1 1
      (Reachable.insert 2 2 Reachable.new))))

/-- C6: in every reachable tree, every node's cached `height_m` equals
`1 + max(cached height of left child, cached height of right child)` (with
`Nil` of height 0, so a leaf caches 1); hence caches equal true heights. -/
theorem c6_height_correctness {K V : Type} [LinearOrder K] {t : AVLTree K V}
    (h : Reachable t) : t.heightsOk = true :=
  (reachable_invar h).1

theorem c6_height_correctness_witness :
    ((((AVLTree.new.insert 1 1).insert 2 2).insert 3 3).remove 1 :
        AVLTree Int Int × Option Int).1.heightsOk = true :=
  c6_height_correctness
    (Reachable.remove 1 (Reachable.insert 3 3 (Reachable.insert 2 2
      (Reachable.insert 1 1 Reachable.new))))

/-- C7: on a reachable tree, `get` of an absent key returns `none` and
`remove` of an absent key returns `none`; neither signals an error. -/
theorem c7_absent_keys {K V : Type} [LinearOrder K] {t : AVLTree K V}
    (hr : Reachable t) {k : K} (hk : k ∉ t.keys) :
    t.get k = none ∧ (t.remove k).2 = none := by
  have inv := reachable_invar hr
  exact ⟨get_not_mem inv hk, by rw [remove_not_mem inv hk]⟩

theorem c7_absent_keys_witness :
    ((5 : Int) ∉ ((AVLTree.new.insert 1 10) : AVLTree Int Int).keys) ∧
      ((AVLTree.new.insert 1 10) : AVLTree Int Int).get 5 = none ∧
      (((AVLTree.new.insert 1 10) : AVLTree Int Int).remove 5).2 = none := by
  have hR : Reachable ((AVLTree.new.insert 1 10) : AVLTree Int Int) :=
    Reachable.insert 1 10 Reachable.new
  have hk : (5 : Int) ∉ ((AVLTree.new.insert 1 10) : AVLTree Int Int).keys := by decide
  have h := c7_absent_keys hR hk
  exact ⟨by decide, h.1, h.2⟩

/-- C8: on every reachable tree, every balance factor inspected by
`rebalance` during an `insert` or a `remove` (including inside
`delete_promote_leftmost`) lies in `[-2, 2]`, so the
`panic!("illegal balance factor")` arm is unreachable. -/
theorem c8_balance_factor_range {K V : Type} [LinearOrder K] {t : AVLTree K V}
    (hr : Reachable t) (k : K) (v : V) :
    t.insertBalOk k v = true ∧ t.removeBalOk k = true := by
  have inv := reachable_invar hr
  exact ⟨(AVLTree.insert_wf ⟨inv.1, inv.2.1⟩ k v).2.2.2,
    (AVLTree.remove_wf ⟨inv.1, inv.2.1⟩ k).2.2.2⟩

theorem c8_balance_factor_range_witness :
    (((AVLTree.new.insert 1 1).insert 2 2 : AVLTree Int Int).insertBalOk 3 3 = true) ∧
      (((AVLTree.new.insert 1 1).insert 2 2 : AVLTree Int Int).removeBalOk 1 = true) :=
  c8_balance_factor_range (Reachable.insert 2 2 (Reachable.insert 1 1 Reachable.new)) 3 3
    |>.imp id (fun _ => (c8_balance_factor_range
      (Reachable.insert 2 2 (Reachable.insert 1 1 Reachable.new)) 1 1).2)

/-- C9: removing an absent key from a reachable tree returns the tree
literally unchanged (same shape, same entries, same cached heights) paired
with `none`. -/
theorem c9_remove_absent_id {K V : Type} [LinearOrder K] {t : AVLTree K V}
    (hr : Reachable t) {k : K} (hk : k ∉ t.keys) : t.remove k = (t, none) :=
  remove_not_mem (reachable_invar hr) hk

theorem c9_remove_absent_id_witness :
    ((7 : Int) ∉ ((AVLTree.new.insert 1 10).insert 2 20 : AVLTree Int Int).keys) ∧
      ((AVLTree.new.insert 1 10).insert 2 20 : AVLTree Int Int).remove 7
        = (((AVLTree.new.insert 1 10).insert 2 20 : AVLTree Int Int), none) :=
  ⟨by decide, c9_remove_absent_id
    (Reachable.insert 2 20 (Reachable.insert 1 10 Reachable.new)) (by decide)⟩

/-- C10: in every reachable tree, every node's `entry.value` slot is
occupied (`Some`), so the internal `unwrap`s of the value option in `get`,
`take_value` and `delete_promote_leftmost` never panic. -/
theorem c10_values_occupied {K V : Type} [LinearOrder K] {t : AVLTree K V}
    (h : Reachable t) : t.valuesSome = true :=
  (reachable_invar h).2.2.2

theorem c10_values_occupied_witness :
    ((((AVLTree.new.insert 1 1).insert 2 2).insert 0 0).remove 1 :
        AVLTree Int Int × Option Int).1.valuesSome = true :=
  c10_values_occupied
    (Reachable.remove 1 (Reachable.insert 0 0 (Reachable.insert 2 2
      (Reachable.insert 1 1 Reachable.new))))
